import Mathlib

/-!
Verification of the image-transform and TIFF-ingestion core of the
`image_viewer` repository (`src/image_processing.rs`, `src/main.rs`).

Modelling conventions:
* `u8` samples are `ℕ` values; pixel grids are total functions `ℕ → ℕ → …`
  read only on `x < width`, `y < height`.
* Rust `f32` arithmetic is modelled by exact arithmetic over `ℚ` (where the
  source only adds/subtracts/divides byte- or sample-valued data) or over `ℝ`
  (where the source calls `ln`, `sqrt`, `cos`, `log10`).  `f32` comparisons
  and `min`/`max` folds carry over verbatim.
* Rust's saturating float-to-int cast `as u8` clamps to `[0, 255]` and
  truncates toward zero; on the non-negative operands produced here it is
  `⌊min v 255⌋` (`asU8` over `ℚ`, `asU8R` over `ℝ`).
* Library behaviour that the source calls into is modelled from the
  libraries' documented contracts: the `image` crate's `to_rgba8`/`to_luma8`
  conversions and zero-initialised `ImageBuffer::new`, `rustfft`'s forward
  (unnormalised) discrete Fourier transform, and the `tiff` crate's decoded
  interleaved sample vector.
-/

/-- An 8-bit RGBA pixel, the pixel type every normalizer in
`image_processing.rs` works on after `img.to_rgba8()`. -/
structure Rgba where
  r : ℕ
  g : ℕ
  b : ℕ
  a : ℕ
deriving DecidableEq

/-- Channel access in the order `pixel[0] … pixel[3]` = R, G, B, A used by the
`for i in 0..4` loops of the source. -/
def Rgba.ch (p : Rgba) : Fin 4 → ℕ
  | 0 => p.r
  | 1 => p.g
  | 2 => p.b
  | 3 => p.a

/-- The 8-bit variants of the `image` crate's `DynamicImage` that the
repository produces and consumes (gray, RGB, RGBA); the pixel grid is a total
function read on `x < w`, `y < h`. -/
inductive DynImage where
  | luma8 (w h : ℕ) (px : ℕ → ℕ → ℕ)
  | rgb8 (w h : ℕ) (px : ℕ → ℕ → ℕ × ℕ × ℕ)
  | rgba8 (w h : ℕ) (px : ℕ → ℕ → Rgba)

def DynImage.width : DynImage → ℕ
  | .luma8 w _ _ => w
  | .rgb8 w _ _ => w
  | .rgba8 w _ _ => w

def DynImage.height : DynImage → ℕ
  | .luma8 _ h _ => h
  | .rgb8 _ h _ => h
  | .rgba8 _ h _ => h

/-- Number of channels of the pixel format (1 = gray, 3 = RGB, 4 = RGBA);
this is the channel count `main.rs` reads off a `DynamicImage` with its
`match img { ImageLuma8 .. => 1, ImageRgb8 .. => 3, ImageRgba8 .. => 4, _ }`. -/
def DynImage.channelCount : DynImage → ℕ
  | .luma8 _ _ _ => 1
  | .rgb8 _ _ _ => 3
  | .rgba8 _ _ _ => 4

/-- Modelled from the `image` crate: `DynamicImage::to_rgba8` expands gray to
`(l,l,l,255)`, RGB to `(r,g,b,255)` and leaves RGBA unchanged. -/
def toRgba8 : DynImage → ℕ → ℕ → Rgba
  | .luma8 _ _ px => fun x y => ⟨px x y, px x y, px x y, 255⟩
  | .rgb8 _ _ px => fun x y => ⟨(px x y).1, (px x y).2.1, (px x y).2.2, 255⟩
  | .rgba8 _ _ px => px

/-- Modelled from the `image` crate's `rgb_to_luma`: integer BT.709 weights
`SRGB_LUMA = [2126, 7152, 722]` divided by `SRGB_LUMA_DIV = 10000`. -/
def lumaOfRgb (r g b : ℕ) : ℕ := (2126 * r + 7152 * g + 722 * b) / 10000

/-- Modelled from the `image` crate: `DynamicImage::to_luma8` (alpha is
dropped, RGB is reduced by `rgb_to_luma`). -/
def toLuma8 : DynImage → ℕ → ℕ → ℕ
  | .luma8 _ _ px => px
  | .rgb8 _ _ px => fun x y => lumaOfRgb (px x y).1 (px x y).2.1 (px x y).2.2
  | .rgba8 _ _ px => fun x y => lumaOfRgb (px x y).r (px x y).g (px x y).b

/-- The pixel coordinates of a `w × h` buffer in the row-major order in which
`rgba.pixels()` and the source's `for y { for x }` loops visit them. -/
def gridPts (w h : ℕ) : List (ℕ × ℕ) :=
  (List.range h).flatMap fun y => (List.range w).map fun x => (x, y)

/-- Rust's saturating cast `as u8` applied to an exact rational value:
clamp to `[0, 255]`, truncate toward zero (for the non-negative operands
arising here this is `⌊min v 255⌋`). -/
def asU8 (q : ℚ) : ℕ := (⌊min q 255⌋).toNat

/-- Rust's saturating cast `as u8` applied to an exact real value. -/
noncomputable def asU8R (x : ℝ) : ℕ := (⌊min x 255⌋).toNat

/-! ## `min_max_normalize` (`image_processing.rs:5-40`) -/

/-- `min_val[c]` of `min_max_normalize`: fold of `u8::min` over all pixels of
the RGBA view, seeded with `u8::MAX = 255`. -/
def minVal (img : DynImage) (c : Fin 4) : ℕ :=
  (gridPts img.width img.height).foldl
    (fun acc p => min acc ((toRgba8 img p.1 p.2).ch c)) 255

/-- `max_val[c]` of `min_max_normalize`: fold of `u8::max` over all pixels of
the RGBA view, seeded with `u8::MIN = 0`. -/
def maxVal (img : DynImage) (c : Fin 4) : ℕ :=
  (gridPts img.width img.height).foldl
    (fun acc p => max acc ((toRgba8 img p.1 p.2).ch c)) 0

/-- `min_max_normalize`: per channel, if `max_val > min_val` remap by
`((v - min) / (max - min) * 255.0) as u8`, else pass the sample through;
the result is always an `ImageRgba8` of the input's dimensions. -/
def minMaxNormalize (img : DynImage) : DynImage :=
  .rgba8 img.width img.height fun x y =>
    let pix := toRgba8 img x y
    let f : Fin 4 → ℕ := fun c =>
      if minVal img c < maxVal img c then
        asU8 ((((pix.ch c : ℚ) - (minVal img c : ℚ)) /
          ((maxVal img c : ℚ) - (minVal img c : ℚ))) * 255)
      else pix.ch c
    ⟨f 0, f 1, f 2, f 3⟩

/-! ## Direct TIFF ingestion of 32-bit float data (`main.rs:345-439`) -/

/-- `f32::EPSILON = 2⁻²³`, the threshold of `(max_val - min_val).abs() >
f32::EPSILON` in `load_tiff_direct`. -/
def f32Eps : ℚ := 1 / 2 ^ 23

/-- Fold of `f32::min` seeded with `f32::INFINITY` (`none` plays the role of
the infinite seed): `img_data.iter().fold(f32::INFINITY, |a, &b| a.min(b))`. -/
def samplesMin (l : List ℚ) : Option ℚ :=
  l.foldl (fun acc v => some (match acc with | none => v | some m => min m v)) none

/-- Fold of `f32::max` seeded with `f32::NEG_INFINITY`. -/
def samplesMax (l : List ℚ) : Option ℚ :=
  l.foldl (fun acc v => some (match acc with | none => v | some m => max m v)) none

/-- The tuple returned by `load_tiff_direct` for a 32-bit float TIFF:
display bytes, `is_fp` flag, recorded `(min, max)` range, retained
full-precision samples, dimensions, channel count. -/
structure TiffResult where
  displayData : List ℕ
  isFp : Bool
  range : ℚ × ℚ
  fpData : List ℚ
  dims : ℕ × ℕ
  channels : ℕ
deriving DecidableEq

/-- `load_tiff_direct`, `Gray(32)` arm (`main.rs:345-371`): min/max over all
samples, remap every sample by `((v - min) / (max - min) * 255.0) as u8` when
`(max - min).abs() > f32::EPSILON`, else fill with `128`; the original `f32`
vector is returned verbatim.  `none` models the failure cases: an empty
sample vector (whose folds would record the infinite seeds, which have no
rational counterpart) and `ImageBuffer::from_raw` rejecting a sample count
different from `width * height`. -/
def loadTiffGray32 (w h : ℕ) (data : List ℚ) : Option TiffResult :=
  match samplesMin data, samplesMax data with
  | some mn, some mx =>
    let conv : List ℕ :=
      if |mx - mn| > f32Eps then
        data.map fun v => asU8 ((v - mn) / (mx - mn) * 255)
      else
        List.replicate data.length 128
    if data.length = w * h then
      some ⟨conv, true, (mn, mx), data, (w, h), 1⟩
    else none
  | _, _ => none

/-- `load_tiff_direct`, `RGBA(32)` arm (`main.rs:399-439`).  The decoded
vector is interleaved `r,g,b,a,r,g,b,a,…`; the source takes the slice
`&img_data[..pixel_count * 3]` for its min/max scan, remaps R, G, B of each
4-sample chunk by the recorded range and alpha by `clamp(0,1) * 255`.
`none` models an empty statistics slice or `ImageBuffer::from_raw` rejecting
a sample count different from `width * height * 4` (chunked conversion is
written with indexed access, equivalent on exactly-sized input). -/
def loadTiffRgba32 (w h : ℕ) (data : List ℚ) : Option TiffResult :=
  let pixelCount := w * h
  let rgbData := data.take (pixelCount * 3)
  match samplesMin rgbData, samplesMax rgbData with
  | some mn, some mx =>
    let conv : List ℕ :=
      if |mx - mn| > f32Eps then
        (List.range pixelCount).flatMap fun i =>
          [asU8 ((data.getD (4 * i) 0 - mn) / (mx - mn) * 255),
           asU8 ((data.getD (4 * i + 1) 0 - mn) / (mx - mn) * 255),
           asU8 ((data.getD (4 * i + 2) 0 - mn) / (mx - mn) * 255),
           asU8 (min (max (data.getD (4 * i + 3) 0) 0) 1 * 255)]
      else
        (List.range pixelCount).flatMap fun i =>
          [128, 128, 128, asU8 (min (max (data.getD (4 * i + 3) 0) 0) 1 * 255)]
    if data.length = pixelCount * 4 then
      some ⟨conv, true, (mn, mx), data, (w, h), 4⟩
    else none
  | _, _ => none

/-- The non-alpha (R, G, B) samples of interleaved RGBA data, following the
spec's words: the dynamic-range statistics are to be taken over "all and only
the non-alpha samples" (alpha is never part of them).  This is the
specification-side definition compared against the slice the source scans. -/
def specNonAlphaSamples (w h : ℕ) (data : List ℚ) : List ℚ :=
  (List.range (w * h)).flatMap fun i =>
    [data.getD (4 * i) 0, data.getD (4 * i + 1) 0, data.getD (4 * i + 2) 0]

/-! ## `log_min_max_normalize` (`image_processing.rs:42-82`) -/

/-- `f32::MAX = (2 - 2⁻²³)·2¹²⁷ = 2¹²⁸ - 2¹⁰⁴`, the seed of the log-domain
minimum fold. -/
noncomputable def F32MAX : ℝ := 2 ^ 128 - 2 ^ 104

/-- `f32::MIN = -f32::MAX`, the seed of the log-domain maximum fold. -/
noncomputable def F32MIN : ℝ := -F32MAX

/-- `min_val[c]` of `log_min_max_normalize`: over all pixels, samples with
`val > 0.0` contribute `val.ln()` to a `min` fold seeded with `f32::MAX`;
non-positive samples are skipped. -/
noncomputable def logMinVal (img : DynImage) (c : Fin 4) : ℝ :=
  (gridPts img.width img.height).foldl
    (fun acc p =>
      let v := (toRgba8 img p.1 p.2).ch c
      if 0 < v then min acc (Real.log v) else acc) F32MAX

/-- `max_val[c]` of `log_min_max_normalize`, seeded with `f32::MIN`. -/
noncomputable def logMaxVal (img : DynImage) (c : Fin 4) : ℝ :=
  (gridPts img.width img.height).foldl
    (fun acc p =>
      let v := (toRgba8 img p.1 p.2).ch c
      if 0 < v then max acc (Real.log v) else acc) F32MIN

/-- `log_min_max_normalize`: per channel, if `val > 0.0 && max_val > min_val`
remap by `((ln val - min) / (max - min) * 255.0) as u8`, else pass the sample
through; the result is always an `ImageRgba8` of the input's dimensions. -/
noncomputable def logMinMaxNormalize (img : DynImage) : DynImage :=
  .rgba8 img.width img.height fun x y =>
    let pix := toRgba8 img x y
    let f : Fin 4 → ℕ := fun c =>
      if 0 < pix.ch c ∧ logMinVal img c < logMaxVal img c then
        asU8R ((Real.log (pix.ch c) - logMinVal img c) /
          (logMaxVal img c - logMinVal img c) * 255)
      else pix.ch c
    ⟨f 0, f 1, f 2, f 3⟩

/-! ## `standardize` (`image_processing.rs:84-130`) -/

/-- `sum[c]` of `standardize`: one pass accumulating every sample of the
channel. -/
noncomputable def chSum (img : DynImage) (c : Fin 4) : ℝ :=
  (gridPts img.width img.height).foldl
    (fun acc p => acc + ((toRgba8 img p.1 p.2).ch c : ℝ)) 0

/-- `sum_sq[c]` of `standardize`: the same pass accumulating `val * val`. -/
noncomputable def chSumSq (img : DynImage) (c : Fin 4) : ℝ :=
  (gridPts img.width img.height).foldl
    (fun acc p => acc + ((toRgba8 img p.1 p.2).ch c : ℝ) *
      ((toRgba8 img p.1 p.2).ch c : ℝ)) 0

/-- `mean[c] = sum[c] / total_pixels` with `total_pixels = width * height`. -/
noncomputable def chMean (img : DynImage) (c : Fin 4) : ℝ :=
  chSum img c / (img.width * img.height : ℝ)

/-- `variance = sum_sq / total_pixels - mean * mean` (population variance). -/
noncomputable def chVariance (img : DynImage) (c : Fin 4) : ℝ :=
  chSumSq img c / (img.width * img.height : ℝ) - chMean img c * chMean img c

/-- `std[c] = variance.sqrt()`. -/
noncomputable def chStd (img : DynImage) (c : Fin 4) : ℝ :=
  Real.sqrt (chVariance img c)

/-- Rust's `val.clamp(lo, hi) = min (max val lo) hi`. -/
noncomputable def clampR (v lo hi : ℝ) : ℝ := min (max v lo) hi

/-- `standardize`: per channel, if `std > 0.0` remap by
`(((v - mean) / std) * 50.0 + 127.0).clamp(0.0, 255.0) as u8`, else pass the
sample through; the result is always an `ImageRgba8` of the input's
dimensions. -/
noncomputable def standardize (img : DynImage) : DynImage :=
  .rgba8 img.width img.height fun x y =>
    let pix := toRgba8 img x y
    let f : Fin 4 → ℕ := fun c =>
      if 0 < chStd img c then
        asU8R (clampR (((pix.ch c : ℝ) - chMean img c) / chStd img c * 50 + 127)
          0 255)
      else pix.ch c
    ⟨f 0, f 1, f 2, f 3⟩

/-! ## `fft` (`image_processing.rs:132-198`) -/

/-- The Hamming window applied to row position `x`:
`0.54 - 0.46 * cos(2π x / (width - 1))`. -/
noncomputable def hammingWindow (w : ℕ) (x : ℕ) : ℝ :=
  0.54 - 0.46 * Real.cos (2 * Real.pi * x / ((w : ℝ) - 1))

/-- The complex input grid of `fft`: the luminance sample at `(x, y)` times
the row window, with zero imaginary part. -/
noncomputable def windowed (img : DynImage) (y x : ℕ) : ℂ :=
  (((toLuma8 img x y : ℝ) * hammingWindow img.width x : ℝ) : ℂ)

/-- Modelled from `rustfft`: `plan_fft_forward(N).process` computes the
unnormalised forward discrete Fourier transform
`X[k] = Σ_{n<N} x[n]·exp(-2πi·k·n/N)`. -/
noncomputable def dft (N : ℕ) (v : ℕ → ℂ) (k : ℕ) : ℂ :=
  ∑ n ∈ Finset.range N, v n * Complex.exp (-(2 * Real.pi * Complex.I * k * n) / N)

/-- The grid after the row pass: a length-`width` forward transform of each
row of the windowed input. -/
noncomputable def rowFft (img : DynImage) (y x : ℕ) : ℂ :=
  dft img.width (fun t => windowed img y t) x

/-- The grid after both passes (transpose, column transform, transpose back):
a length-`height` forward transform of each column of the row-pass result. -/
noncomputable def fullFft (img : DynImage) (y x : ℕ) : ℂ :=
  dft img.height (fun t => rowFft img t x) y

/-- The log-compressed magnitude of frequency cell `(x, y)`:
`(norm + 1).log10()`. -/
noncomputable def fftMag (img : DynImage) (x y : ℕ) : ℝ :=
  Real.logb 10 (Complex.abs (fullFft img y x) + 1)

/-- `max_magnitude`: fold of `f32::max` over all cells (row-major), seeded
with `0.0`. -/
noncomputable def fftMaxMag (img : DynImage) : ℝ :=
  (gridPts img.width img.height).foldl
    (fun acc p => max acc (fftMag img p.1 p.2)) 0

/-- The byte written for cell `(x, y)`:
`(magnitude / max_magnitude * 255.0) as u8`. -/
noncomputable def fftByte (img : DynImage) (x y : ℕ) : ℕ :=
  asU8R (fftMag img x y / fftMaxMag img * 255)

/-- One `put_pixel` store into a pixel grid. -/
def writeCell (f : ℕ → ℕ → ℕ) (p : ℕ × ℕ) (v : ℕ) : ℕ → ℕ → ℕ :=
  fun u u' => if u = p.1 ∧ u' = p.2 then v else f u u'

/-- The quadrant-swap target of cell `(x, y)`:
`((x + width/2) % width, (y + height/2) % height)`. -/
def swapPos (w h : ℕ) (p : ℕ × ℕ) : ℕ × ℕ :=
  ((p.1 + w / 2) % w, (p.2 + h / 2) % h)

/-- The output buffer of `fft`: starting from the zero-initialised
`ImageBuffer::new`, store the byte of every cell `(x, y)` (row-major) at its
quadrant-swapped position. -/
def buildSwapped (w h : ℕ) (byte : ℕ → ℕ → ℕ) : ℕ → ℕ → ℕ :=
  (gridPts w h).foldl
    (fun acc p => writeCell acc (swapPos w h p) (byte p.1 p.2)) (fun _ _ => 0)

/-- `fft`: reduce to luminance, window, transform rows then columns,
log-compress magnitudes, normalise by the global maximum and write each cell
to its quadrant-swapped position in a gray-scale (`ImageLuma8`) buffer of the
input's dimensions. -/
noncomputable def fft (img : DynImage) : DynImage :=
  .luma8 img.width img.height (buildSwapped img.width img.height (fftByte img))

/-! ## Generic lemmas about the folds used above -/

theorem mem_gridPts {w h : ℕ} {p : ℕ × ℕ} :
    p ∈ gridPts w h ↔ p.1 < w ∧ p.2 < h := by
  cases p with
  | mk x y =>
    simp only [gridPts, List.mem_flatMap, List.mem_map, List.mem_range,
      Prod.mk.injEq]
    constructor
    · rintro ⟨y0, hy0, x0, hx0, rfl, rfl⟩
      exact ⟨hx0, hy0⟩
    · rintro ⟨hx, hy⟩
      exact ⟨y, hy, x, hx, rfl, rfl⟩

/-- A guarded fold visits exactly the elements that pass the guard: it equals
the unguarded fold over the filtered list. -/
theorem foldl_guard_eq_filter {α β : Type} (g : β → α → β) (p : α → Prop)
    [DecidablePred p] (l : List α) (s : β) :
    l.foldl (fun acc v => if p v then g acc v else acc) s =
      (l.filter (fun v => decide (p v))).foldl g s := by
  induction l generalizing s with
  | nil => rfl
  | cons a t ih =>
    by_cases h : p a
    · simp [h, ih]
    · simp [h, ih]

section FoldOrder

variable {α β : Type} [LinearOrder β]

theorem foldl_min_le_seed (f : α → β) (l : List α) (s : β) :
    l.foldl (fun acc v => min acc (f v)) s ≤ s := by
  induction l generalizing s with
  | nil => exact le_refl s
  | cons a t ih =>
    exact le_trans (ih (min s (f a))) (min_le_left _ _)

theorem foldl_min_le_mem (f : α → β) (l : List α) (s : β) {v : α} (hv : v ∈ l) :
    l.foldl (fun acc v => min acc (f v)) s ≤ f v := by
  induction l generalizing s with
  | nil => cases hv
  | cons a t ih =>
    rcases List.mem_cons.mp hv with h | h
    · subst h
      exact le_trans (foldl_min_le_seed f t (min s (f v))) (min_le_right _ _)
    · exact ih (min s (f a)) h

theorem foldl_min_mem_or_seed (f : α → β) (l : List α) (s : β) :
    l.foldl (fun acc v => min acc (f v)) s = s ∨
      ∃ v ∈ l, l.foldl (fun acc v => min acc (f v)) s = f v := by
  induction l generalizing s with
  | nil => exact Or.inl rfl
  | cons a t ih =>
    rcases ih (min s (f a)) with h | ⟨v, hv, h⟩
    · rcases min_cases s (f a) with ⟨he, _⟩ | ⟨he, _⟩
      · exact Or.inl (by simpa [he] using h)
      · exact Or.inr ⟨a, List.mem_cons_self a t, by simpa [he] using h⟩
    · exact Or.inr ⟨v, List.mem_cons_of_mem a hv, h⟩

theorem foldl_max_seed_le (f : α → β) (l : List α) (s : β) :
    s ≤ l.foldl (fun acc v => max acc (f v)) s := by
  induction l generalizing s with
  | nil => exact le_refl s
  | cons a t ih =>
    exact le_trans (le_max_left _ _) (ih (max s (f a)))

theorem foldl_max_mem_le (f : α → β) (l : List α) (s : β) {v : α} (hv : v ∈ l) :
    f v ≤ l.foldl (fun acc v => max acc (f v)) s := by
  induction l generalizing s with
  | nil => cases hv
  | cons a t ih =>
    rcases List.mem_cons.mp hv with h | h
    · subst h
      exact le_trans (le_max_right _ _) (foldl_max_seed_le f t (max s (f v)))
    · exact ih (max s (f a)) h

theorem foldl_max_mem_or_seed (f : α → β) (l : List α) (s : β) :
    l.foldl (fun acc v => max acc (f v)) s = s ∨
      ∃ v ∈ l, l.foldl (fun acc v => max acc (f v)) s = f v := by
  induction l generalizing s with
  | nil => exact Or.inl rfl
  | cons a t ih =>
    rcases ih (max s (f a)) with h | ⟨v, hv, h⟩
    · rcases max_cases s (f a) with ⟨he, _⟩ | ⟨he, _⟩
      · exact Or.inl (by simpa [he] using h)
      · exact Or.inr ⟨a, List.mem_cons_self a t, by simpa [he] using h⟩
    · exact Or.inr ⟨v, List.mem_cons_of_mem a hv, h⟩

end FoldOrder

theorem samplesMinAux_isSome (l : List ℚ) (s : ℚ) :
    (l.foldl (fun acc v =>
      some (match acc with | none => v | some m => min m v)) (some s)).isSome := by
  induction l generalizing s with
  | nil => rfl
  | cons a t ih => exact ih _

theorem samplesMinAux_le (l : List ℚ) (s : ℚ) {m : ℚ}
    (hm : l.foldl (fun acc v =>
      some (match acc with | none => v | some m => min m v)) (some s) = some m) :
    m ≤ s ∧ (m = s ∨ ∃ v ∈ l, m = v) ∧ ∀ v ∈ l, m ≤ v := by
  induction l generalizing s with
  | nil =>
    cases hm
    exact ⟨le_refl _, Or.inl rfl, by simp⟩
  | cons a t ih =>
    have h := ih (min s a) (by simpa using hm)
    refine ⟨le_trans h.1 (min_le_left _ _), ?_, ?_⟩
    · rcases h.2.1 with he | ⟨v, hv, he⟩
      · rcases min_cases s a with ⟨hc, _⟩ | ⟨hc, _⟩
        · exact Or.inl (he.trans hc)
        · exact Or.inr ⟨a, List.mem_cons_self a t, he.trans hc⟩
      · exact Or.inr ⟨v, List.mem_cons_of_mem a hv, he⟩
    · intro v hv
      rcases List.mem_cons.mp hv with hv | hv
      · exact hv ▸ le_trans h.1 (min_le_right _ _)
      · exact h.2.2 v hv

theorem samplesMaxAux_isSome (l : List ℚ) (s : ℚ) :
    (l.foldl (fun acc v =>
      some (match acc with | none => v | some m => max m v)) (some s)).isSome := by
  induction l generalizing s with
  | nil => rfl
  | cons a t ih => exact ih _

theorem samplesMaxAux_le (l : List ℚ) (s : ℚ) {m : ℚ}
    (hm : l.foldl (fun acc v =>
      some (match acc with | none => v | some m => max m v)) (some s) = some m) :
    s ≤ m ∧ (m = s ∨ ∃ v ∈ l, m = v) ∧ ∀ v ∈ l, v ≤ m := by
  induction l generalizing s with
  | nil =>
    cases hm
    exact ⟨le_refl _, Or.inl rfl, by simp⟩
  | cons a t ih =>
    have h := ih (max s a) (by simpa using hm)
    refine ⟨le_trans (le_max_left _ _) h.1, ?_, ?_⟩
    · rcases h.2.1 with he | ⟨v, hv, he⟩
      · rcases max_cases s a with ⟨hc, _⟩ | ⟨hc, _⟩
        · exact Or.inl (he.trans hc)
        · exact Or.inr ⟨a, List.mem_cons_self a t, he.trans hc⟩
      · exact Or.inr ⟨v, List.mem_cons_of_mem a hv, he⟩
    · intro v hv
      rcases List.mem_cons.mp hv with hv | hv
      · exact hv ▸ le_trans (le_max_right _ _) h.1
      · exact h.2.2 v hv

/-- For a nonempty sample vector, the infinity-seeded `min` fold returns an
attained lower bound of the samples. -/
theorem samplesMin_spec {l : List ℚ} (hl : l ≠ []) :
    ∃ m, samplesMin l = some m ∧ m ∈ l ∧ ∀ v ∈ l, m ≤ v := by
  cases l with
  | nil => exact absurd rfl hl
  | cons a t =>
    rcases Option.isSome_iff_exists.mp (samplesMinAux_isSome t a) with ⟨m, hm⟩
    refine ⟨m, hm, ?_⟩
    have h := samplesMinAux_le t a hm
    refine ⟨?_, ?_⟩
    · rcases h.2.1 with he | ⟨v, hv, he⟩
      · exact he ▸ List.mem_cons_self a t
      · exact he ▸ List.mem_cons_of_mem a hv
    · intro v hv
      rcases List.mem_cons.mp hv with hv | hv
      · exact hv ▸ h.1
      · exact h.2.2 v hv

/-- For a nonempty sample vector, the `-∞`-seeded `max` fold returns an
attained upper bound of the samples. -/
theorem samplesMax_spec {l : List ℚ} (hl : l ≠ []) :
    ∃ m, samplesMax l = some m ∧ m ∈ l ∧ ∀ v ∈ l, v ≤ m := by
  cases l with
  | nil => exact absurd rfl hl
  | cons a t =>
    rcases Option.isSome_iff_exists.mp (samplesMaxAux_isSome t a) with ⟨m, hm⟩
    refine ⟨m, hm, ?_⟩
    have h := samplesMaxAux_le t a hm
    refine ⟨?_, ?_⟩
    · rcases h.2.1 with he | ⟨v, hv, he⟩
      · exact he ▸ List.mem_cons_self a t
      · exact he ▸ List.mem_cons_of_mem a hv
    · intro v hv
      rcases List.mem_cons.mp hv with hv | hv
      · exact hv ▸ h.1
      · exact h.2.2 v hv

/-! ## Stores through an injective key map (the quadrant swap) -/

theorem writeCell_same (f : ℕ → ℕ → ℕ) (p : ℕ × ℕ) (v : ℕ) :
    writeCell f p v p.1 p.2 = v := by
  simp [writeCell]

theorem writeCell_other (f : ℕ → ℕ → ℕ) (p q : ℕ × ℕ) (v : ℕ) (h : q ≠ p) :
    writeCell f p v q.1 q.2 = f q.1 q.2 := by
  have : ¬(q.1 = p.1 ∧ q.2 = p.2) := by
    intro hc
    exact h (Prod.ext hc.1 hc.2)
  simp [writeCell, this]

/-- Stores at keys different from `q` leave the value at `q` unchanged. -/
theorem foldl_write_preserve (σ : ℕ × ℕ → ℕ × ℕ) (byte : ℕ × ℕ → ℕ)
    (l : List (ℕ × ℕ)) (acc : ℕ → ℕ → ℕ) (q : ℕ × ℕ)
    (hq : ∀ p ∈ l, σ p ≠ q) :
    (l.foldl (fun acc p => writeCell acc (σ p) (byte p)) acc) q.1 q.2 =
      acc q.1 q.2 := by
  induction l generalizing acc with
  | nil => rfl
  | cons a t ih =>
    have h1 : ∀ p ∈ t, σ p ≠ q := fun p hp => hq p (List.mem_cons_of_mem a hp)
    have h2 : q ≠ σ a := fun hc => hq a (List.mem_cons_self a t) hc.symm
    rw [List.foldl_cons, ih _ h1, writeCell_other _ _ _ _ h2]

/-- After storing every cell of `l` through a key map that is injective at
`p₀`, the buffer holds `byte p₀` at key `σ p₀`. -/
theorem foldl_write_lookup (σ : ℕ × ℕ → ℕ × ℕ) (byte : ℕ × ℕ → ℕ)
    (l : List (ℕ × ℕ)) (acc : ℕ → ℕ → ℕ) (p₀ : ℕ × ℕ)
    (hmem : p₀ ∈ l) (hinj : ∀ p ∈ l, σ p = σ p₀ → p = p₀) :
    (l.foldl (fun acc p => writeCell acc (σ p) (byte p)) acc) (σ p₀).1 (σ p₀).2 =
      byte p₀ := by
  induction l generalizing acc with
  | nil => cases hmem
  | cons a t ih =>
    by_cases hp : p₀ ∈ t
    · exact ih _ hp (fun p hpt => hinj p (List.mem_cons_of_mem a hpt))
    · have ha : a = p₀ := by
        rcases List.mem_cons.mp hmem with h | h
        · exact h.symm
        · exact absurd h hp
      subst ha
      have hother : ∀ p ∈ t, σ p ≠ σ a := by
        intro p hpt hc
        exact hp ((hinj p (List.mem_cons_of_mem a hpt) hc) ▸ hpt)
      rw [List.foldl_cons,
        foldl_write_preserve σ byte t _ (σ a) hother, writeCell_same]

/-- Adding a constant before reducing `% w` is injective on `[0, w)`. -/
theorem add_mod_cancel_of_lt {a b c w : ℕ} (ha : a < w) (hb : b < w)
    (h : (a + c) % w = (b + c) % w) : a = b := by
  have hmod : a % w = b % w :=
    Nat.ModEq.add_right_cancel' c h
  rwa [Nat.mod_eq_of_lt ha, Nat.mod_eq_of_lt hb] at hmod

/-- The quadrant swap is injective on the pixel grid. -/
theorem swapPos_inj {w h : ℕ} {p q : ℕ × ℕ}
    (hp : p.1 < w ∧ p.2 < h) (hq : q.1 < w ∧ q.2 < h)
    (he : swapPos w h q = swapPos w h p) : q = p := by
  have h1 : (q.1 + w / 2) % w = (p.1 + w / 2) % w := congrArg Prod.fst he
  have h2 : (q.2 + h / 2) % h = (p.2 + h / 2) % h := congrArg Prod.snd he
  exact Prod.ext (add_mod_cancel_of_lt hq.1 hp.1 h1)
    (add_mod_cancel_of_lt hq.2 hp.2 h2)

/-- The quadrant swap is surjective onto the pixel grid: every in-range
output position is the swap target of exactly one in-range cell. -/
theorem swapPos_surj {w h u v : ℕ} (hu : u < w) (hv : v < h) :
    ∃ p : ℕ × ℕ, p.1 < w ∧ p.2 < h ∧ swapPos w h p = (u, v) := by
  have hw : 0 < w := lt_of_le_of_lt (Nat.zero_le u) hu
  have hh : 0 < h := lt_of_le_of_lt (Nat.zero_le v) hv
  refine ⟨((u + (w - w / 2)) % w, (v + (h - h / 2)) % h),
    Nat.mod_lt _ hw, Nat.mod_lt _ hh, ?_⟩
  have hws : w - w / 2 + w / 2 = w := Nat.sub_add_cancel (Nat.div_le_self w 2)
  have hhs : h - h / 2 + h / 2 = h := Nat.sub_add_cancel (Nat.div_le_self h 2)
  apply Prod.ext
  · show ((u + (w - w / 2)) % w + w / 2) % w = u
    rw [Nat.mod_add_mod, add_assoc, hws, Nat.add_mod_right, Nat.mod_eq_of_lt hu]
  · show ((v + (h - h / 2)) % h + h / 2) % h = v
    rw [Nat.mod_add_mod, add_assoc, hhs, Nat.add_mod_right, Nat.mod_eq_of_lt hv]

/-- Reading the stored byte back out of the swap-built buffer. -/
theorem buildSwapped_read {w h : ℕ} (byte : ℕ → ℕ → ℕ) {x y : ℕ}
    (hx : x < w) (hy : y < h) :
    buildSwapped w h byte ((x + w / 2) % w) ((y + h / 2) % h) = byte x y := by
  have hmem : ((x, y) : ℕ × ℕ) ∈ gridPts w h := mem_gridPts.mpr ⟨hx, hy⟩
  have hinj : ∀ p ∈ gridPts w h, swapPos w h p = swapPos w h (x, y) →
      p = (x, y) := by
    intro p hp he
    exact swapPos_inj ⟨hx, hy⟩ (mem_gridPts.mp hp) he
  exact foldl_write_lookup (swapPos w h) (fun p => byte p.1 p.2)
    (gridPts w h) (fun _ _ => 0) (x, y) hmem hinj

/-! ## Claim C1 -/

theorem minVal_le_mem (img : DynImage) (c : Fin 4) {p : ℕ × ℕ}
    (hp : p ∈ gridPts img.width img.height) :
    minVal img c ≤ (toRgba8 img p.1 p.2).ch c := by
  show (gridPts img.width img.height).foldl
    (fun acc q => min acc ((toRgba8 img q.1 q.2).ch c)) 255 ≤ _
  exact foldl_min_le_mem (fun q => (toRgba8 img q.1 q.2).ch c) _ 255 hp

theorem mem_le_maxVal (img : DynImage) (c : Fin 4) {p : ℕ × ℕ}
    (hp : p ∈ gridPts img.width img.height) :
    (toRgba8 img p.1 p.2).ch c ≤ maxVal img c := by
  show _ ≤ (gridPts img.width img.height).foldl
    (fun acc q => max acc ((toRgba8 img q.1 q.2).ch c)) 0
  exact foldl_max_mem_le (fun q => (toRgba8 img q.1 q.2).ch c) _ 0 hp

theorem minMaxNormalize_px (img : DynImage) (x y : ℕ) (c : Fin 4) :
    (toRgba8 (minMaxNormalize img) x y).ch c =
      if minVal img c < maxVal img c then
        asU8 ((((toRgba8 img x y).ch c : ℚ) - (minVal img c : ℚ)) /
          ((maxVal img c : ℚ) - (minVal img c : ℚ)) * 255)
      else (toRgba8 img x y).ch c := by
  fin_cases c <;> rfl

/-- C1 (amended): `min_max_normalize` computes, per channel, the attained
minimum and maximum over all pixels (for byte-valued input), and remaps a
sample of a non-constant channel to the *truncation toward zero* of
`((value - min) / (max - min)) * 255` — Rust's `as u8` cast — not to its
rounding; a constant channel passes through unchanged. -/
theorem min_max_normalize_channel_spec (img : DynImage) (x y : ℕ) (c : Fin 4)
    (hx : x < img.width) (hy : y < img.height)
    (hbytes : ∀ p ∈ gridPts img.width img.height, ∀ j : Fin 4,
      (toRgba8 img p.1 p.2).ch j ≤ 255) :
    (∃ p ∈ gridPts img.width img.height,
        (toRgba8 img p.1 p.2).ch c = minVal img c) ∧
    (∀ p ∈ gridPts img.width img.height,
        minVal img c ≤ (toRgba8 img p.1 p.2).ch c) ∧
    (∃ p ∈ gridPts img.width img.height,
        (toRgba8 img p.1 p.2).ch c = maxVal img c) ∧
    (∀ p ∈ gridPts img.width img.height,
        (toRgba8 img p.1 p.2).ch c ≤ maxVal img c) ∧
    (toRgba8 (minMaxNormalize img) x y).ch c =
      (if minVal img c < maxVal img c then
        asU8 ((((toRgba8 img x y).ch c : ℚ) - (minVal img c : ℚ)) /
          ((maxVal img c : ℚ) - (minVal img c : ℚ)) * 255)
      else (toRgba8 img x y).ch c) := by
  have hmemxy : ((x, y) : ℕ × ℕ) ∈ gridPts img.width img.height :=
    mem_gridPts.mpr ⟨hx, hy⟩
  refine ⟨?_, fun p hp => minVal_le_mem img c hp, ?_,
    fun p hp => mem_le_maxVal img c hp, minMaxNormalize_px img x y c⟩
  · have hcases := foldl_min_mem_or_seed
      (fun q => (toRgba8 img q.1 q.2).ch c) (gridPts img.width img.height) 255
    rcases hcases with hseed | ⟨p, hp, hval⟩
    · refine ⟨(x, y), hmemxy, le_antisymm ?_ ?_⟩
      · have h255 : minVal img c = 255 := hseed
        exact (hbytes (x, y) hmemxy c).trans (le_of_eq h255.symm)
      · exact minVal_le_mem img c hmemxy
    · exact ⟨p, hp, (show minVal img c = _ from hval).symm⟩
  · have hcases := foldl_max_mem_or_seed
      (fun q => (toRgba8 img q.1 q.2).ch c) (gridPts img.width img.height) 0
    rcases hcases with hseed | ⟨p, hp, hval⟩
    · refine ⟨(x, y), hmemxy, le_antisymm ?_ ?_⟩
      · exact mem_le_maxVal img c hmemxy
      · have h0 : maxVal img c = 0 := hseed
        exact h0 ▸ Nat.zero_le _
    · exact ⟨p, hp, (show maxVal img c = _ from hval).symm⟩

/-- The 1×3 RGBA image with red samples 0, 1, 2 (green/blue 0, alpha 255):
red min 0, max 2, and the middle sample maps to 127.5 before the byte cast. -/
def c1Img : DynImage := .rgba8 1 3 fun _ y => ⟨y, 0, 0, 255⟩

theorem c1Img_minVal : minVal c1Img 0 = 0 := by decide

theorem c1Img_maxVal : maxVal c1Img 0 = 2 := by decide

/-- C1 counterexample: on `c1Img` the source truncates the red sample `1` to
`(127.5 : f32) as u8 = 127`, while the claim's `round` formula demands 128. -/
theorem min_max_normalize_round_counterexample :
    (toRgba8 (minMaxNormalize c1Img) 0 1).ch 0 = 127 ∧
    (round ((((toRgba8 c1Img 0 1).ch 0 : ℚ) - (minVal c1Img 0 : ℚ)) /
      ((maxVal c1Img 0 : ℚ) - (minVal c1Img 0 : ℚ)) * 255)).toNat = 128 ∧
    (toRgba8 (minMaxNormalize c1Img) 0 1).ch 0 ≠
      (round ((((toRgba8 c1Img 0 1).ch 0 : ℚ) - (minVal c1Img 0 : ℚ)) /
        ((maxVal c1Img 0 : ℚ) - (minVal c1Img 0 : ℚ)) * 255)).toNat := by
  have hch : (toRgba8 c1Img 0 1).ch 0 = 1 := by decide
  have hgoal : (toRgba8 (minMaxNormalize c1Img) 0 1).ch 0 = 127 ∧
      (round ((((toRgba8 c1Img 0 1).ch 0 : ℚ) - (minVal c1Img 0 : ℚ)) /
        ((maxVal c1Img 0 : ℚ) - (minVal c1Img 0 : ℚ)) * 255)).toNat = 128 := ?_
  · exact ⟨hgoal.1, hgoal.2, by rw [hgoal.1, hgoal.2]; decide⟩
  constructor
  · rw [minMaxNormalize_px c1Img 0 1 0, hch, c1Img_minVal, c1Img_maxVal,
      if_pos (by decide : (0 : ℕ) < 2)]
    show (⌊min (((1 : ℕ) - (0 : ℕ) : ℚ) / ((2 : ℕ) - (0 : ℕ)) * 255) 255⌋).toNat
      = 127
    rw [show (((1 : ℕ) - (0 : ℕ) : ℚ) / ((2 : ℕ) - (0 : ℕ)) * 255) = 255 / 2
        by push_cast; norm_num,
      min_eq_left (by norm_num : (255 : ℚ) / 2 ≤ 255)]
    norm_num
    decide
  · rw [hch, c1Img_minVal, c1Img_maxVal]
    rw [show (((1 : ℕ) : ℚ) - ((0 : ℕ) : ℚ)) / (((2 : ℕ) : ℚ) - ((0 : ℕ) : ℚ))
        * 255 = 255 / 2 by push_cast; norm_num]
    rw [round_eq]
    norm_num
    decide

/-- C1 witness: the amended theorem applied to `c1Img` at pixel (0, 1),
channel red, where the non-constant branch truncates to 127. -/
theorem min_max_normalize_channel_spec_witness :
    ((0 : ℕ) < c1Img.width ∧ (1 : ℕ) < c1Img.height ∧
      ∀ p ∈ gridPts c1Img.width c1Img.height, ∀ j : Fin 4,
        (toRgba8 c1Img p.1 p.2).ch j ≤ 255) ∧
    minVal c1Img 0 < maxVal c1Img 0 ∧
    (toRgba8 (minMaxNormalize c1Img) 0 1).ch 0 = 127 := by
  refine ⟨⟨by decide, by decide, by decide⟩, by decide, ?_⟩
  have h := (min_max_normalize_channel_spec c1Img 0 1 0 (by decide) (by decide)
    (by decide)).2.2.2.2
  rw [h, if_pos (by decide : minVal c1Img 0 < maxVal c1Img 0)]
  have hch : (toRgba8 c1Img 0 1).ch 0 = 1 := by decide
  rw [hch, c1Img_minVal, c1Img_maxVal]
  show (⌊min (((1 : ℕ) - (0 : ℕ) : ℚ) / ((2 : ℕ) - (0 : ℕ)) * 255) 255⌋).toNat
    = 127
  rw [show (((1 : ℕ) - (0 : ℕ) : ℚ) / ((2 : ℕ) - (0 : ℕ)) * 255) = 255 / 2
      by push_cast; norm_num,
    min_eq_left (by norm_num : (255 : ℚ) / 2 ≤ 255)]
  norm_num
  decide

/-! ## Claim C8 -/

/-- A single-channel (gray) 2×2 input. -/
def c8Img : DynImage := .luma8 2 2 fun _ _ => 5

/-- C8 counterexample: `min_max_normalize` always returns an `ImageRgba8`,
so a single-channel input comes back with 4 channels, not 1. -/
theorem normalize_channel_count_counterexample :
    c8Img.channelCount = 1 ∧ (minMaxNormalize c8Img).channelCount = 4 ∧
    (minMaxNormalize c8Img).channelCount ≠ c8Img.channelCount := by
  exact ⟨rfl, rfl, by decide⟩

/-- C8 (amended): all three statistics normalizers preserve the input's
width and height, but always produce a 4-channel (RGBA) buffer regardless of
the input's channel count. -/
theorem normalize_output_shape (img : DynImage) :
    (minMaxNormalize img).width = img.width ∧
    (minMaxNormalize img).height = img.height ∧
    (minMaxNormalize img).channelCount = 4 ∧
    (logMinMaxNormalize img).width = img.width ∧
    (logMinMaxNormalize img).height = img.height ∧
    (logMinMaxNormalize img).channelCount = 4 ∧
    (standardize img).width = img.width ∧
    (standardize img).height = img.height ∧
    (standardize img).channelCount = 4 :=
  ⟨rfl, rfl, rfl, rfl, rfl, rfl, rfl, rfl, rfl⟩

/-! ## Claim C2 -/

/-- A 2×1 RGBA f32 image, interleaved: pixel 0 = (1,1,1, alpha 9),
pixel 1 = (2,3,4, alpha 0). -/
def c2Data : List ℚ := [1, 1, 1, 9, 2, 3, 4, 0]

/-- C2 (code-bug evidence): the statistics slice `&img_data[..pixel_count*3]`
of the `RGBA(32)` arm is the first three *quarters* of the interleaved
sample vector, not the non-alpha samples.  On `c2Data` it is
`[1,1,1,9,2,3]`: the recorded range is `(1, 9)` — the `9` is the first
pixel's alpha — while the extrema over the non-alpha samples
`[1,1,1,2,3,4]` are `(1, 4)` (the second pixel's blue `4` is dropped from
the scan). -/
theorem rgba32_range_scans_alpha_slice :
    (loadTiffRgba32 2 1 c2Data).map (fun r => r.range) = some (1, 9) ∧
    samplesMin (specNonAlphaSamples 2 1 c2Data) = some 1 ∧
    samplesMax (specNonAlphaSamples 2 1 c2Data) = some 4 ∧
    ((1 : ℚ), (9 : ℚ)) ≠ ((1 : ℚ), (4 : ℚ)) := by
  exact ⟨by decide, by decide, by decide, by decide⟩

/-! ## Claim C4 -/

theorem getD_map {α β : Type} (f : α → β) (l : List α) (i : ℕ) (d : β)
    (d0 : α) (h : i < l.length) :
    (l.map f).getD i d = f (l.getD i d0) := by
  induction l generalizing i with
  | nil => cases h
  | cons a t ih =>
    cases i with
    | zero => rfl
    | succ j => exact ih j (Nat.lt_of_succ_lt_succ h)

theorem asU8_zero : asU8 0 = 0 := by
  rw [asU8, min_eq_left (by norm_num : (0 : ℚ) ≤ 255)]
  norm_num

theorem asU8_255 : asU8 255 = 255 := by
  rw [asU8, min_self]
  norm_num
  decide

/-- C4: the `Gray(32)` TIFF arm returns the exact attained minimum and
maximum of the samples as the source range; when the range exceeds
`f32::EPSILON`, a minimum-valued sample displays as byte 0 and a
maximum-valued sample as byte 255; a constant buffer displays entirely as
128 with range `(v, v)`; and the full-precision sample vector is retained
verbatim. -/
theorem gray32_ingestion_spec (w h : ℕ) (data : List ℚ)
    (hne : data ≠ []) (hlen : data.length = w * h) :
    ∃ r, loadTiffGray32 w h data = some r ∧
      r.isFp = true ∧ r.fpData = data ∧ r.dims = (w, h) ∧ r.channels = 1 ∧
      r.range.1 ∈ data ∧ (∀ v ∈ data, r.range.1 ≤ v) ∧
      r.range.2 ∈ data ∧ (∀ v ∈ data, v ≤ r.range.2) ∧
      (|r.range.2 - r.range.1| > f32Eps →
        ∀ i, i < data.length →
          (data.getD i 0 = r.range.1 → r.displayData.getD i 1 = 0) ∧
          (data.getD i 0 = r.range.2 → r.displayData.getD i 0 = 255)) ∧
      (∀ v : ℚ, (∀ u ∈ data, u = v) →
        r.range = (v, v) ∧ r.displayData = List.replicate (w * h) 128) := by
  rcases samplesMin_spec hne with ⟨mn, hmn, hmn_mem, hmn_le⟩
  rcases samplesMax_spec hne with ⟨mx, hmx, hmx_mem, hmx_ge⟩
  have heq : loadTiffGray32 w h data =
      some ⟨if |mx - mn| > f32Eps then
          data.map fun v => asU8 ((v - mn) / (mx - mn) * 255)
        else List.replicate data.length 128,
        true, (mn, mx), data, (w, h), 1⟩ := by
    rw [loadTiffGray32, hmn, hmx]
    simp only [if_pos hlen]
  refine ⟨_, heq, rfl, rfl, rfl, rfl, hmn_mem, hmn_le, hmx_mem, hmx_ge, ?_, ?_⟩
  · intro hgt i hi
    have hd : (if |mx - mn| > f32Eps then
        data.map fun v => asU8 ((v - mn) / (mx - mn) * 255)
      else List.replicate data.length 128) =
        data.map fun v => asU8 ((v - mn) / (mx - mn) * 255) := if_pos hgt
    have hne0 : mx - mn ≠ 0 := by
      intro hz
      rw [hz] at hgt
      exact absurd hgt (by rw [abs_zero]; norm_num [f32Eps])
    constructor
    · intro hvmin
      rw [hd, getD_map _ _ _ _ 0 hi, hvmin]
      show asU8 ((mn - mn) / (mx - mn) * 255) = 0
      rw [sub_self, zero_div, zero_mul, asU8_zero]
    · intro hvmax
      rw [hd, getD_map _ _ _ _ 0 hi, hvmax]
      show asU8 ((mx - mn) / (mx - mn) * 255) = 255
      rw [div_self hne0, one_mul, asU8_255]
  · intro v hconst
    have hmn_v : mn = v := hconst mn hmn_mem
    have hmx_v : mx = v := hconst mx hmx_mem
    have hnotgt : ¬(|mx - mn| > f32Eps) := by
      rw [hmn_v, hmx_v, sub_self, abs_zero]
      norm_num [f32Eps]
    constructor
    · show ((mn, mx) : ℚ × ℚ) = (v, v)
      rw [hmn_v, hmx_v]
    · show (if |mx - mn| > f32Eps then
          data.map fun v => asU8 ((v - mn) / (mx - mn) * 255)
        else List.replicate data.length 128) = List.replicate (w * h) 128
      rw [if_neg hnotgt, hlen]

/-- The 2×1 gray f32 buffer with samples 0 and 300. -/
def c4Data : List ℚ := [0, 300]

/-- C4 witness: the ingestion theorem applied to the concrete 2×1 buffer
`[0, 300]`, discharging nonemptiness and the length condition. -/
theorem gray32_ingestion_spec_witness :
    (c4Data ≠ [] ∧ c4Data.length = 2 * 1) ∧
    ∃ r, loadTiffGray32 2 1 c4Data = some r ∧ r.isFp = true ∧
      r.fpData = c4Data ∧ r.range.1 ∈ c4Data ∧ r.range.2 ∈ c4Data := by
  refine ⟨⟨by decide, by decide⟩, ?_⟩
  rcases gray32_ingestion_spec 2 1 c4Data (by decide) (by decide) with
    ⟨r, hr, hfp, hdata, _, _, hmn_mem, _, hmx_mem, _⟩
  exact ⟨r, hr, hfp, hdata, hmn_mem, hmx_mem⟩

/-! ## Claim C9: `load_image` (`main.rs:208-247`) -/

/-- The error taxonomy of the spec for a failed load. -/
inductive LoadError where
  | decodeError
  | unsupportedFormat
  | bufferShape
deriving DecidableEq

/-- The tuple `load_image_with_fallback` returns on success:
`(img, is_fp, data_range, fp_data, fp_dims, fp_channels)`. -/
structure LoadedImage where
  img : DynImage
  isFp : Bool
  range : Option (ℚ × ℚ)
  fpData : Option (List ℚ)
  fpDims : Option (ℕ × ℕ)
  fpChannels : Option ℕ

/-- The image-session fields of `ImageViewerApp` that `load_image` replaces
(those the claim names, plus the derived scale fields set alongside them). -/
structure AppState where
  image : Option DynImage
  imagePath : Option String
  isFloatingPointImage : Bool
  originalDataRange : Option (ℚ × ℚ)
  originalFpData : Option (List ℚ)
  originalFpDimensions : Option (ℕ × ℕ)
  originalFpChannels : Option ℕ
  baseScale : ℚ
  scale : ℚ

/-- `load_image`: the fallible `load_image_with_fallback(&path)?` call comes
first (it takes `&self` and mutates nothing); on `Err` the method returns
early with every field untouched, on `Ok` it computes `base_scale` from the
decoded dimensions (`1024.0 - 100.0` display budget) and assigns all session
fields from the one returned tuple. -/
def loadImage (s : AppState) (path : String)
    (loaded : Except LoadError LoadedImage) :
    AppState × Except LoadError Unit :=
  match loaded with
  | .error e => (s, .error e)
  | .ok d =>
    let scaleW : ℚ := 924 / d.img.width
    let scaleH : ℚ := 924 / d.img.height
    ({ s with
        baseScale := min (min scaleW scaleH) 1,
        image := some d.img,
        imagePath := some path,
        isFloatingPointImage := d.isFp,
        originalDataRange := d.range,
        originalFpData := d.fpData,
        originalFpDimensions := d.fpDims,
        originalFpChannels := d.fpChannels,
        scale := 1 }, .ok ())

/-- C9: a failed load returns the session state exactly as it was — display
image, path, floating-point flag, recorded range and retained precision
buffer all untouched — and a successful load replaces the display image and
every floating-point session field together from the single tuple the loader
returned (never partially). -/
theorem load_image_atomic (s : AppState) (path : String) (e : LoadError)
    (d : LoadedImage) :
    loadImage s path (.error e) = (s, .error e) ∧
    (loadImage s path (.ok d)).2 = .ok () ∧
    (loadImage s path (.ok d)).1.image = some d.img ∧
    (loadImage s path (.ok d)).1.imagePath = some path ∧
    (loadImage s path (.ok d)).1.isFloatingPointImage = d.isFp ∧
    (loadImage s path (.ok d)).1.originalDataRange = d.range ∧
    (loadImage s path (.ok d)).1.originalFpData = d.fpData ∧
    (loadImage s path (.ok d)).1.originalFpDimensions = d.fpDims ∧
    (loadImage s path (.ok d)).1.originalFpChannels = d.fpChannels :=
  ⟨rfl, rfl, rfl, rfl, rfl, rfl, rfl, rfl, rfl⟩

/-! ## Claim C10: the pixel-probe query (`main.rs:1429-1509`) -/

/-- The pixel information the hover handler publishes: either exact values
from the retained floating-point buffer (`pixel_info_fp`) or byte values
from the display image (`pixel_info`), each with its channel count. -/
inductive PixelInfo where
  | fp (x y : ℕ) (r g b : ℚ) (channels : ℕ)
  | display (x y : ℕ) (r g b : ℕ) (channels : Option ℕ)
deriving DecidableEq

/-- The session state the pixel probe reads: the displayed image and the
retained floating-point data with its dimensions and channel count. -/
structure Session where
  img : DynImage
  fpData : Option (List ℚ)
  fpDims : Option (ℕ × ℕ)
  fpChannels : Option ℕ

/-- The pixel-probe query of `update`: guard
`image_x < orig_width && image_y < orig_height`, then sample from the
floating-point buffer when `(original_fp_data, original_fp_dimensions,
original_fp_channels)` are all present (channel counts 1/3/4, each behind
its own index bound check; other counts fall back to the display pixel with
no channel count), else sample the display image, with the channel count
read off the image format.  `none` models the branches that publish no
pixel info (out-of-bounds coordinates, failed index bound check). -/
def queryPixel (s : Session) (x y : ℕ) : Option PixelInfo :=
  if x < s.img.width ∧ y < s.img.height then
    match s.fpData, s.fpDims, s.fpChannels with
    | some fpData, some fpDims, some fpChannels =>
      let pixelIdx := y * fpDims.1 + x
      if fpChannels = 1 then
        if pixelIdx < fpData.length then
          some (.fp x y (fpData.getD pixelIdx 0) (fpData.getD pixelIdx 0)
            (fpData.getD pixelIdx 0) 1)
        else none
      else if fpChannels = 3 then
        if pixelIdx * 3 + 2 < fpData.length then
          some (.fp x y (fpData.getD (pixelIdx * 3) 0)
            (fpData.getD (pixelIdx * 3 + 1) 0)
            (fpData.getD (pixelIdx * 3 + 2) 0) 3)
        else none
      else if fpChannels = 4 then
        if pixelIdx * 4 + 2 < fpData.length then
          some (.fp x y (fpData.getD (pixelIdx * 4) 0)
            (fpData.getD (pixelIdx * 4 + 1) 0)
            (fpData.getD (pixelIdx * 4 + 2) 0) 4)
        else none
      else
        some (.display x y (toRgba8 s.img x y).r (toRgba8 s.img x y).g
          (toRgba8 s.img x y).b none)
    | _, _, _ =>
      some (.display x y (toRgba8 s.img x y).r (toRgba8 s.img x y).g
        (toRgba8 s.img x y).b (some s.img.channelCount))
  else none

/-- The invariant established by every successful load: the floating-point
session fields are either all absent, or all present with the display
image's dimensions, a channel count in {1, 3, 4} and a sample vector of
exactly `width * height * channels` elements. -/
def SessionWF (s : Session) : Prop :=
  (s.fpData = none ∧ s.fpDims = none ∧ s.fpChannels = none) ∨
  (∃ d ch, s.fpData = some d ∧
    s.fpDims = some (s.img.width, s.img.height) ∧
    s.fpChannels = some ch ∧ (ch = 1 ∨ ch = 3 ∨ ch = 4) ∧
    d.length = s.img.width * s.img.height * ch)

theorem pixelIdx_lt {x y w h : ℕ} (hx : x < w) (hy : y < h) :
    y * w + x < h * w :=
  calc y * w + x < y * w + w := Nat.add_lt_add_left hx _
    _ = (y + 1) * w := (Nat.succ_mul y w).symm
    _ ≤ h * w := Nat.mul_le_mul_right w hy

/-- C10: on a well-formed session, every in-bounds query (including `(0,0)`
and `(width-1, height-1)`) publishes pixel values — from the retained
floating-point buffer when present, otherwise from the display buffer —
and every out-of-bounds query (such as `(width, 0)`) publishes the
out-of-bounds signal `none` instead of indexing past a buffer. -/
theorem query_pixel_spec (s : Session) (hwf : SessionWF s) (x y : ℕ) :
    (¬(x < s.img.width ∧ y < s.img.height) → queryPixel s x y = none) ∧
    (x < s.img.width → y < s.img.height →
      (s.fpData = none →
        queryPixel s x y = some (.display x y (toRgba8 s.img x y).r
          (toRgba8 s.img x y).g (toRgba8 s.img x y).b
          (some s.img.channelCount))) ∧
      (∀ d, s.fpData = some d →
        (s.fpChannels = some 1 →
          queryPixel s x y = some (.fp x y
            (d.getD (y * s.img.width + x) 0) (d.getD (y * s.img.width + x) 0)
            (d.getD (y * s.img.width + x) 0) 1)) ∧
        (s.fpChannels = some 3 →
          queryPixel s x y = some (.fp x y
            (d.getD ((y * s.img.width + x) * 3) 0)
            (d.getD ((y * s.img.width + x) * 3 + 1) 0)
            (d.getD ((y * s.img.width + x) * 3 + 2) 0) 3)) ∧
        (s.fpChannels = some 4 →
          queryPixel s x y = some (.fp x y
            (d.getD ((y * s.img.width + x) * 4) 0)
            (d.getD ((y * s.img.width + x) * 4 + 1) 0)
            (d.getD ((y * s.img.width + x) * 4 + 2) 0) 4)))) := by
  constructor
  · intro hout
    rw [queryPixel, if_neg hout]
  · intro hx hy
    have hin : x < s.img.width ∧ y < s.img.height := ⟨hx, hy⟩
    have hidx : y * s.img.width + x < s.img.height * s.img.width :=
      pixelIdx_lt hx hy
    constructor
    · intro hnone
      rcases hwf with ⟨hd, hdim, hch⟩ | ⟨d, ch, hd, _, _, _, _⟩
      · rw [queryPixel, if_pos hin, hd, hdim, hch]
      · rw [hnone] at hd
        cases hd
    · intro d hd
      rcases hwf with ⟨hnone, _, _⟩ | ⟨d2, ch, hd2, hdim, hch, hch_val, hlen⟩
      · rw [hd] at hnone
        cases hnone
      · rw [hd] at hd2
        injection hd2 with hdd
        subst hdd
        refine ⟨?_, ?_, ?_⟩
        · intro hch1
          have hb : y * s.img.width + x < d.length := by
            rw [hlen]
            have hchv : ch = 1 := by
              rw [hch1] at hch
              injection hch with hv
              exact hv.symm
            rw [hchv]
            calc y * s.img.width + x < s.img.height * s.img.width := hidx
              _ = s.img.width * s.img.height * 1 := by ring
          simp [queryPixel, hd, hdim, hch1, hx, hy, hb]
        · intro hch3
          have hb : (y * s.img.width + x) * 3 + 2 < d.length := by
            rw [hlen]
            have hchv : ch = 3 := by
              rw [hch3] at hch
              injection hch with hv
              exact hv.symm
            rw [hchv]
            have h1 : y * s.img.width + x + 1 ≤ s.img.height * s.img.width :=
              hidx
            calc (y * s.img.width + x) * 3 + 2
                < (y * s.img.width + x) * 3 + 3 := by omega
              _ = (y * s.img.width + x + 1) * 3 := by ring
              _ ≤ s.img.height * s.img.width * 3 :=
                  Nat.mul_le_mul_right 3 h1
              _ = s.img.width * s.img.height * 3 := by ring
          simp [queryPixel, hd, hdim, hch3, hx, hy, hb]
        · intro hch4
          have hb : (y * s.img.width + x) * 4 + 2 < d.length := by
            rw [hlen]
            have hchv : ch = 4 := by
              rw [hch4] at hch
              injection hch with hv
              exact hv.symm
            rw [hchv]
            have h1 : y * s.img.width + x + 1 ≤ s.img.height * s.img.width :=
              hidx
            calc (y * s.img.width + x) * 4 + 2
                < (y * s.img.width + x) * 4 + 4 := by omega
              _ = (y * s.img.width + x + 1) * 4 := by ring
              _ ≤ s.img.height * s.img.width * 4 :=
                  Nat.mul_le_mul_right 4 h1
              _ = s.img.width * s.img.height * 4 := by ring
          simp [queryPixel, hd, hdim, hch4, hx, hy, hb]

/-- A concrete well-formed floating-point gray session: 2×2 display image,
retained samples `[10, 20, 30, 40]`. -/
def c10Session : Session :=
  ⟨.luma8 2 2 fun _ _ => 9, some [10, 20, 30, 40], some (2, 2), some 1⟩

theorem c10Session_wf : SessionWF c10Session :=
  Or.inr ⟨[10, 20, 30, 40], 1, rfl, rfl, rfl, Or.inl rfl, rfl⟩

/-- C10 witness: on the concrete session, the query at `(width, 0) = (2, 0)`
reports the out-of-bounds signal, and the in-bounds corner query `(1, 1)`
returns the retained floating-point sample. -/
theorem query_pixel_spec_witness :
    SessionWF c10Session ∧
    queryPixel c10Session 2 0 = none ∧
    queryPixel c10Session 1 1 = some (.fp 1 1
      (List.getD [10, 20, 30, 40] (1 * 2 + 1) 0)
      (List.getD [10, 20, 30, 40] (1 * 2 + 1) 0)
      (List.getD [10, 20, 30, 40] (1 * 2 + 1) 0) 1) := by
  refine ⟨c10Session_wf, ?_, ?_⟩
  · exact (query_pixel_spec c10Session c10Session_wf 2 0).1 (by decide)
  · exact (((query_pixel_spec c10Session c10Session_wf 1 1).2 (by decide)
      (by decide)).2 [10, 20, 30, 40] rfl).1 rfl

/-! ## Claim C7 -/

theorem foldl_add_eq_sum {α : Type} (f : α → ℝ) (l : List α) (s : ℝ) :
    l.foldl (fun acc v => acc + f v) s = s + (l.map f).sum := by
  induction l generalizing s with
  | nil => simp
  | cons a t ih => simp [ih, add_assoc]

theorem standardize_px (img : DynImage) (x y : ℕ) (c : Fin 4) :
    (toRgba8 (standardize img) x y).ch c =
      if 0 < chStd img c then
        asU8R (clampR ((((toRgba8 img x y).ch c : ℝ) - chMean img c) /
          chStd img c * 50 + 127) 0 255)
      else (toRgba8 img x y).ch c := by
  fin_cases c <;> rfl

/-- C7: `standardize` accumulates `sum` and `sum_sq` per channel in one pass
over all pixels, takes `mean = sum/N`, `stddev = sqrt(sum_sq/N - mean²)`
with `N = width*height` (population statistics), and maps each sample to
`clamp((value - mean)/stddev * 50 + 127, 0, 255)` cast to a byte when
`stddev > 0`, passing the sample through unchanged when `stddev = 0`. -/
theorem standardize_spec (img : DynImage) (x y : ℕ) (c : Fin 4)
    (hx : x < img.width) (hy : y < img.height) :
    chSum img c = ((gridPts img.width img.height).map
      (fun p => ((toRgba8 img p.1 p.2).ch c : ℝ))).sum ∧
    chSumSq img c = ((gridPts img.width img.height).map
      (fun p => ((toRgba8 img p.1 p.2).ch c : ℝ) *
        ((toRgba8 img p.1 p.2).ch c : ℝ))).sum ∧
    chMean img c = chSum img c / (img.width * img.height : ℝ) ∧
    chStd img c = Real.sqrt (chSumSq img c / (img.width * img.height : ℝ) -
      chMean img c * chMean img c) ∧
    (0 < chStd img c →
      (toRgba8 (standardize img) x y).ch c =
        asU8R (clampR ((((toRgba8 img x y).ch c : ℝ) - chMean img c) /
          chStd img c * 50 + 127) 0 255)) ∧
    (chStd img c = 0 →
      (toRgba8 (standardize img) x y).ch c = (toRgba8 img x y).ch c) := by
  refine ⟨?_, ?_, rfl, rfl, ?_, ?_⟩
  · show (gridPts img.width img.height).foldl
      (fun acc p => acc + ((toRgba8 img p.1 p.2).ch c : ℝ)) 0 = _
    rw [foldl_add_eq_sum, zero_add]
  · show (gridPts img.width img.height).foldl
      (fun acc p => acc + ((toRgba8 img p.1 p.2).ch c : ℝ) *
        ((toRgba8 img p.1 p.2).ch c : ℝ)) 0 = _
    rw [foldl_add_eq_sum (fun p : ℕ × ℕ => ((toRgba8 img p.1 p.2).ch c : ℝ) *
      ((toRgba8 img p.1 p.2).ch c : ℝ)) (gridPts img.width img.height) 0,
      zero_add]
  · intro hstd
    rw [standardize_px, if_pos hstd]
  · intro hstd
    rw [standardize_px, if_neg (by rw [hstd]; exact lt_irrefl 0)]

/-- The 2×1 RGBA image with red samples 0 and 2: red mean 1, variance 1,
standard deviation 1. -/
def c7Img : DynImage := .rgba8 2 1 fun x _ => ⟨2 * x, 7, 7, 255⟩

theorem c7Img_grid : gridPts c7Img.width c7Img.height = [(0, 0), (1, 0)] := by
  decide

theorem c7Img_std : chStd c7Img 0 = 1 := by
  have h00 : ((toRgba8 c7Img 0 0).ch 0 : ℝ) = 0 := by
    rw [show (toRgba8 c7Img 0 0).ch 0 = 0 from by decide]
    norm_num
  have h10 : ((toRgba8 c7Img 1 0).ch 0 : ℝ) = 2 := by
    rw [show (toRgba8 c7Img 1 0).ch 0 = 2 from by decide]
    norm_num
  have hsum : chSum c7Img 0 = 2 := by
    rw [chSum, c7Img_grid]
    simp only [List.foldl]
    rw [h00, h10]
    norm_num
  have hsumsq : chSumSq c7Img 0 = 4 := by
    rw [chSumSq, c7Img_grid]
    simp only [List.foldl]
    rw [h00, h10]
    norm_num
  have hN : ((c7Img.width : ℝ) * (c7Img.height : ℝ)) = 2 := by
    rw [show c7Img.width = 2 from rfl, show c7Img.height = 1 from rfl]
    norm_num
  have hmean : chMean c7Img 0 = 1 := by
    rw [chMean, hsum, hN]
    norm_num
  have hvar : chVariance c7Img 0 = 1 := by
    rw [chVariance, hsumsq, hmean, hN]
    norm_num
  rw [chStd, hvar, Real.sqrt_one]

/-- C7 witness: the standardize theorem applied to `c7Img` at pixel (0, 0),
channel red, whose standard deviation 1 selects the remapping branch. -/
theorem standardize_spec_witness :
    ((0 : ℕ) < c7Img.width ∧ (0 : ℕ) < c7Img.height ∧ 0 < chStd c7Img 0) ∧
    (toRgba8 (standardize c7Img) 0 0).ch 0 =
      asU8R (clampR ((((toRgba8 c7Img 0 0).ch 0 : ℝ) - chMean c7Img 0) /
        chStd c7Img 0 * 50 + 127) 0 255) := by
  have hstd : 0 < chStd c7Img 0 := by
    rw [c7Img_std]
    norm_num
  exact ⟨⟨by decide, by decide, hstd⟩,
    (standardize_spec c7Img 0 0 0 (by decide) (by decide)).2.2.2.2.1 hstd⟩

/-! ## Claim C6 -/

theorem logMinMaxNormalize_px (img : DynImage) (x y : ℕ) (c : Fin 4) :
    (toRgba8 (logMinMaxNormalize img) x y).ch c =
      if 0 < (toRgba8 img x y).ch c ∧ logMinVal img c < logMaxVal img c then
        asU8R ((Real.log ((toRgba8 img x y).ch c) - logMinVal img c) /
          (logMaxVal img c - logMinVal img c) * 255)
      else (toRgba8 img x y).ch c := by
  fin_cases c <;> rfl

/-- C6: the log-domain statistics of `log_min_max_normalize` are folds over
exactly the strictly positive samples — `ln` is only ever applied to
positive input — zero-valued samples pass through to the output unchanged,
and a strictly positive sample with `ln_max > ln_min` is remapped to the
byte cast of `((ln value - ln_min) / (ln_max - ln_min)) * 255`. -/
theorem log_min_max_spec (img : DynImage) (x y : ℕ) (c : Fin 4)
    (hx : x < img.width) (hy : y < img.height) :
    logMinVal img c = ((gridPts img.width img.height).filter
      (fun p => decide (0 < (toRgba8 img p.1 p.2).ch c))).foldl
        (fun acc p => min acc (Real.log ((toRgba8 img p.1 p.2).ch c))) F32MAX ∧
    logMaxVal img c = ((gridPts img.width img.height).filter
      (fun p => decide (0 < (toRgba8 img p.1 p.2).ch c))).foldl
        (fun acc p => max acc (Real.log ((toRgba8 img p.1 p.2).ch c))) F32MIN ∧
    (∀ p ∈ gridPts img.width img.height, 0 < (toRgba8 img p.1 p.2).ch c →
      logMinVal img c ≤ Real.log ((toRgba8 img p.1 p.2).ch c) ∧
      Real.log ((toRgba8 img p.1 p.2).ch c) ≤ logMaxVal img c) ∧
    ((toRgba8 img x y).ch c = 0 →
      (toRgba8 (logMinMaxNormalize img) x y).ch c = (toRgba8 img x y).ch c) ∧
    (0 < (toRgba8 img x y).ch c → logMinVal img c < logMaxVal img c →
      (toRgba8 (logMinMaxNormalize img) x y).ch c =
        asU8R ((Real.log ((toRgba8 img x y).ch c) - logMinVal img c) /
          (logMaxVal img c - logMinVal img c) * 255)) := by
  have hmin_filter : logMinVal img c = ((gridPts img.width img.height).filter
      (fun p => decide (0 < (toRgba8 img p.1 p.2).ch c))).foldl
        (fun acc p => min acc (Real.log ((toRgba8 img p.1 p.2).ch c)))
        F32MAX := by
    show (gridPts img.width img.height).foldl _ F32MAX = _
    rw [foldl_guard_eq_filter
      (fun acc p => min acc (Real.log ((toRgba8 img p.1 p.2).ch c)))
      (fun p => 0 < (toRgba8 img p.1 p.2).ch c)
      (gridPts img.width img.height) F32MAX]
  have hmax_filter : logMaxVal img c = ((gridPts img.width img.height).filter
      (fun p => decide (0 < (toRgba8 img p.1 p.2).ch c))).foldl
        (fun acc p => max acc (Real.log ((toRgba8 img p.1 p.2).ch c)))
        F32MIN := by
    show (gridPts img.width img.height).foldl _ F32MIN = _
    rw [foldl_guard_eq_filter
      (fun acc p => max acc (Real.log ((toRgba8 img p.1 p.2).ch c)))
      (fun p => 0 < (toRgba8 img p.1 p.2).ch c)
      (gridPts img.width img.height) F32MIN]
  refine ⟨hmin_filter, hmax_filter, ?_, ?_, ?_⟩
  · intro p hp hpos
    have hmem : p ∈ (gridPts img.width img.height).filter
        (fun p => decide (0 < (toRgba8 img p.1 p.2).ch c)) :=
      List.mem_filter.mpr ⟨hp, by simpa using hpos⟩
    constructor
    · rw [hmin_filter]
      exact foldl_min_le_mem
        (fun p => Real.log ((toRgba8 img p.1 p.2).ch c)) _ F32MAX hmem
    · rw [hmax_filter]
      exact foldl_max_mem_le
        (fun p => Real.log ((toRgba8 img p.1 p.2).ch c)) _ F32MIN hmem
  · intro hzero
    rw [logMinMaxNormalize_px,
      if_neg (by rw [hzero]; exact fun hc => lt_irrefl 0 hc.1)]
  · intro hpos hlt
    rw [logMinMaxNormalize_px, if_pos ⟨hpos, hlt⟩]

/-- The 1×3 gray image with samples 0, 1, 2: the zero sample is excluded
from the log statistics, `ln_min = ln 1 = 0`, `ln_max = ln 2`. -/
def c6Img : DynImage := .luma8 1 3 fun _ y => y

theorem c6Img_logMinVal : logMinVal c6Img 0 = 0 := by
  have hgrid : gridPts c6Img.width c6Img.height = [(0, 0), (0, 1), (0, 2)] := by
    decide
  have h0 : (toRgba8 c6Img 0 0).ch 0 = 0 := by decide
  have h1 : (toRgba8 c6Img 0 1).ch 0 = 1 := by decide
  have h2 : (toRgba8 c6Img 0 2).ch 0 = 2 := by decide
  rw [logMinVal, hgrid]
  simp only [List.foldl, h0, h1, h2]
  rw [if_neg (by decide : ¬((0 : ℕ) < 0)), if_pos (by decide : (0 : ℕ) < 1),
    if_pos (by decide : (0 : ℕ) < 2)]
  rw [show ((1 : ℕ) : ℝ) = 1 from by norm_num, Real.log_one,
    min_eq_right (by norm_num [F32MAX] : (0 : ℝ) ≤ F32MAX)]
  rw [min_eq_left (Real.log_nonneg (by norm_num : (1 : ℝ) ≤ ((2 : ℕ) : ℝ)))]

theorem c6Img_logMaxVal : logMaxVal c6Img 0 = Real.log 2 := by
  have hgrid : gridPts c6Img.width c6Img.height = [(0, 0), (0, 1), (0, 2)] := by
    decide
  have h0 : (toRgba8 c6Img 0 0).ch 0 = 0 := by decide
  have h1 : (toRgba8 c6Img 0 1).ch 0 = 1 := by decide
  have h2 : (toRgba8 c6Img 0 2).ch 0 = 2 := by decide
  rw [logMaxVal, hgrid]
  simp only [List.foldl, h0, h1, h2]
  rw [if_neg (by decide : ¬((0 : ℕ) < 0)), if_pos (by decide : (0 : ℕ) < 1),
    if_pos (by decide : (0 : ℕ) < 2)]
  rw [show ((1 : ℕ) : ℝ) = 1 from by norm_num, Real.log_one,
    max_eq_right (by norm_num [F32MIN, F32MAX] : F32MIN ≤ (0 : ℝ))]
  rw [max_eq_right (Real.log_nonneg (by norm_num : (1 : ℝ) ≤ ((2 : ℕ) : ℝ))),
    show (((2 : ℕ) : ℝ)) = 2 from by norm_num]

/-- C6 witness: on `c6Img`, the zero sample at (0,0) passes through
unchanged, and the sample 2 at (0,2) (strictly positive, with
`ln_min = 0 < ln 2 = ln_max`) takes the log-remapping branch. -/
theorem log_min_max_spec_witness :
    ((toRgba8 c6Img 0 0).ch 0 = 0 ∧ 0 < (toRgba8 c6Img 0 2).ch 0 ∧
      logMinVal c6Img 0 < logMaxVal c6Img 0) ∧
    (toRgba8 (logMinMaxNormalize c6Img) 0 0).ch 0 = (toRgba8 c6Img 0 0).ch 0 ∧
    (toRgba8 (logMinMaxNormalize c6Img) 0 2).ch 0 =
      asU8R ((Real.log ((toRgba8 c6Img 0 2).ch 0) - logMinVal c6Img 0) /
        (logMaxVal c6Img 0 - logMinVal c6Img 0) * 255) := by
  have hlt : logMinVal c6Img 0 < logMaxVal c6Img 0 := by
    rw [c6Img_logMinVal, c6Img_logMaxVal]
    exact Real.log_pos one_lt_two
  refine ⟨⟨by decide, by decide, hlt⟩, ?_, ?_⟩
  · exact (log_min_max_spec c6Img 0 0 0 (by decide) (by decide)).2.2.2.1
      (by decide)
  · exact (log_min_max_spec c6Img 0 2 0 (by decide) (by decide)).2.2.2.2
      (by decide) hlt

/-! ## Claim C3 -/

/-- C3: `fft` returns a single-channel gray-scale buffer of the input's
width and height regardless of the input's channel count, and the
max-normalised byte of the log-compressed magnitude of frequency cell
`(x, y)` is placed at output position
`((x + width/2) mod width, (y + height/2) mod height)` — in particular the
DC cell `(0, 0)` lands at the image centre `(width/2, height/2)`. -/
theorem fft_spectral_view_spec (img : DynImage) (x y : ℕ)
    (hx : x < img.width) (hy : y < img.height) :
    (fft img).channelCount = 1 ∧
    (fft img).width = img.width ∧ (fft img).height = img.height ∧
    toLuma8 (fft img) ((x + img.width / 2) % img.width)
        ((y + img.height / 2) % img.height) =
      asU8R (fftMag img x y / fftMaxMag img * 255) := by
  refine ⟨rfl, rfl, rfl, ?_⟩
  show buildSwapped img.width img.height (fftByte img)
    ((x + img.width / 2) % img.width) ((y + img.height / 2) % img.height) = _
  rw [buildSwapped_read (fftByte img) hx hy]
  rfl

/-- A 2×2 three-channel (RGB) input for the shape witness. -/
def c3Img : DynImage := .rgb8 2 2 fun _ _ => (7, 11, 13)

/-- C3 witness: the spectral-view theorem applied to the 3-channel `c3Img`
at cell (0, 1). -/
theorem fft_spectral_view_spec_witness :
    ((0 : ℕ) < c3Img.width ∧ (1 : ℕ) < c3Img.height ∧
      c3Img.channelCount = 3) ∧
    ((fft c3Img).channelCount = 1 ∧
      (fft c3Img).width = c3Img.width ∧ (fft c3Img).height = c3Img.height ∧
      toLuma8 (fft c3Img) ((0 + c3Img.width / 2) % c3Img.width)
          ((1 + c3Img.height / 2) % c3Img.height) =
        asU8R (fftMag c3Img 0 1 / fftMaxMag c3Img * 255)) :=
  ⟨⟨by decide, by decide, rfl⟩,
    fft_spectral_view_spec c3Img 0 1 (by decide) (by decide)⟩

/-! ## Claim C5 -/

theorem asU8R_zero : asU8R 0 = 0 := by
  rw [asU8R, min_eq_left (by norm_num : (0 : ℝ) ≤ 255)]
  norm_num

theorem fftMag_nonneg (img : DynImage) (x y : ℕ) : 0 ≤ fftMag img x y := by
  rw [fftMag]
  refine Real.logb_nonneg (by norm_num) ?_
  have := Complex.abs.nonneg (fullFft img y x)
  linarith

theorem fftMaxMag_eq (img : DynImage) :
    fftMaxMag img = (gridPts img.width img.height).foldl
      (fun acc p => max acc (fftMag img p.1 p.2)) 0 := rfl

theorem foldl_fftMag_seed_le (img : DynImage) (l : List (ℕ × ℕ)) (s : ℝ) :
    s ≤ l.foldl (fun acc q => max acc (fftMag img q.1 q.2)) s := by
  induction l generalizing s with
  | nil => exact le_refl s
  | cons a t ih =>
    exact le_trans (le_max_left s (fftMag img a.1 a.2)) (ih _)

theorem fftMag_le_foldl (img : DynImage) (l : List (ℕ × ℕ)) (s : ℝ)
    {p : ℕ × ℕ} (hp : p ∈ l) :
    fftMag img p.1 p.2 ≤
      l.foldl (fun acc q => max acc (fftMag img q.1 q.2)) s := by
  induction l generalizing s with
  | nil => cases hp
  | cons a t ih =>
    rcases List.mem_cons.mp hp with h | h
    · subst h
      exact le_trans (le_max_right s (fftMag img p.1 p.2))
        (foldl_fftMag_seed_le img t _)
    · exact ih _ h

theorem fftMag_le_max (img : DynImage) (p : ℕ × ℕ)
    (hp : p ∈ gridPts img.width img.height) :
    fftMag img p.1 p.2 ≤ fftMaxMag img := by
  rw [fftMaxMag_eq]
  exact fftMag_le_foldl img (gridPts img.width img.height) 0 hp

/-- C5: when the tracked global maximum magnitude is 0 (an all-zero
spectrum, e.g. an all-black image), every in-range magnitude is itself 0
and `fft` writes byte 0 to every in-range output pixel: the division
`magnitude / max_magnitude` never makes a non-zero or non-byte value reach
the output.  (In the source the `f32` quotient `0.0 / 0.0` is NaN and the
saturating `as u8` cast maps NaN to 0; in this exact model `0 / 0 = 0` and
the cast of 0 is 0 — the same output byte.) -/
theorem fft_zero_spectrum_safe (img : DynImage) (hmax : fftMaxMag img = 0)
    (u v : ℕ) (hu : u < img.width) (hv : v < img.height) :
    fftMag img u v = 0 ∧ toLuma8 (fft img) u v = 0 := by
  constructor
  · have hle : fftMag img u v ≤ fftMaxMag img :=
      fftMag_le_max img (u, v) (mem_gridPts.mpr ⟨hu, hv⟩)
    exact le_antisymm (hmax ▸ hle) (fftMag_nonneg img u v)
  · rcases swapPos_surj hu hv with ⟨p, hpx, hpy, hswap⟩
    have h1 : (p.1 + img.width / 2) % img.width = u := congrArg Prod.fst hswap
    have h2 : (p.2 + img.height / 2) % img.height = v := congrArg Prod.snd hswap
    have hread : toLuma8 (fft img) u v = fftByte img p.1 p.2 := by
      rw [← h1, ← h2]
      exact buildSwapped_read (fftByte img) hpx hpy
    rw [hread, fftByte, hmax, div_zero, zero_mul, asU8R_zero]

/-- The all-black 2×2 image: every windowed sample, transform cell and
log-compressed magnitude is 0, so the tracked maximum is 0. -/
def c5Img : DynImage := .luma8 2 2 fun _ _ => 0

theorem c5Img_windowed (y x : ℕ) : windowed c5Img y x = 0 := by
  rw [windowed]
  rw [show toLuma8 c5Img x y = 0 from rfl]
  push_cast
  rw [zero_mul]

theorem c5Img_fullFft (y x : ℕ) : fullFft c5Img y x = 0 := by
  have hrow : ∀ t s, rowFft c5Img t s = 0 := by
    intro t s
    rw [rowFft, dft]
    simp [c5Img_windowed]
  rw [fullFft, dft]
  simp [hrow]

theorem c5Img_fftMag (x y : ℕ) : fftMag c5Img x y = 0 := by
  rw [fftMag, c5Img_fullFft, map_zero, zero_add, Real.logb_one]

theorem c5Img_maxMag : fftMaxMag c5Img = 0 := by
  have hgrid : gridPts c5Img.width c5Img.height =
      [(0, 0), (1, 0), (0, 1), (1, 1)] := by decide
  rw [fftMaxMag, hgrid]
  simp only [List.foldl, c5Img_fftMag, max_self]

/-- C5 witness: on the all-black 2×2 image the tracked maximum magnitude is
0, and the theorem yields output byte 0 at (0, 0). -/
theorem fft_zero_spectrum_safe_witness :
    fftMaxMag c5Img = 0 ∧
    (fftMag c5Img 0 0 = 0 ∧ toLuma8 (fft c5Img) 0 0 = 0) :=
  ⟨c5Img_maxMag,
    fft_zero_spectrum_safe c5Img c5Img_maxMag 0 0 (by decide) (by decide)⟩
